import Mathlib

/-!
Verification of the two analysis tools in this repository:
`Calculadora_de_Contenido_GC.py` (GC-content calculator and marker-delimited
multi-record parsing) and `fastqc.py` (FASTQ quality pipeline).

Modelling conventions: Python strings are `List Char`, Python `float`
percentages are `ℚ`, a Python exception escaping a function is `Option`
(`none` = the call raised), and the Python dict built by `parse_fasta` is an
insertion-ordered association list with overwrite-in-place assignment.
-/

namespace GCCalc

/-- `c` is one of the four characters kept by the regular-expression filter
`re.sub(r'[^ATCG]', '', _)` at line 17 of `Calculadora_de_Contenido_GC.py`. -/
def isATCG (c : Char) : Bool :=
  c = 'A' || c = 'T' || c = 'C' || c = 'G'

/-- Python `str.strip()`: drop whitespace from both ends (used at source
line 15 on the sequence and at line 44 on the identifier). -/
def pyStrip (l : List Char) : List Char :=
  ((l.dropWhile Char.isWhitespace).reverse.dropWhile Char.isWhitespace).reverse

/-- The filtering pipeline of `calcular_gc` (source lines 15-17):
`secuencia.upper().strip()` followed by removal of every non-ATCG char. -/
def filteredOf (s : List Char) : List Char :=
  (pyStrip (s.map Char.toUpper)).filter isATCG

/-- The filtered string as the spec describes it ("the input after
uppercasing and removing all non-ATCG characters"); provably equal to
`filteredOf` because the stripped whitespace fails the ATCG filter anyway. -/
def claimFiltered (s : List Char) : List Char :=
  (s.map Char.toUpper).filter isATCG

/-- Round to the nearest integer, ties to even, as Python `round` does. -/
def roundHalfEven (q : ℚ) : ℤ :=
  if q - ⌊q⌋ < 1/2 then ⌊q⌋
  else if 1/2 < q - ⌊q⌋ then ⌊q⌋ + 1
  else if ⌊q⌋ % 2 = 0 then ⌊q⌋ else ⌊q⌋ + 1

/-- Python `round(x, 2)` (source line 32). -/
def round2 (q : ℚ) : ℚ := (roundHalfEven (q * 100) : ℚ) / 100

/-- The tuple returned by `calcular_gc` at source line 32:
`(round(porcentaje, 2), count_g, count_c, count_a, count_t)`. -/
structure GCResult where
  porcentaje : ℚ
  g : ℕ
  c : ℕ
  a : ℕ
  t : ℕ
deriving DecidableEq

/-- `calcular_gc` (source lines 5-32).  The inner `if total > 0 else 0.0`
guard at line 30 is unreachable because the `total == 0` branch at line 21
returns first. -/
def calcular_gc (secuencia : List Char) : GCResult :=
  let s := filteredOf secuencia
  let total := s.length
  if total = 0 then ⟨0, 0, 0, 0, 0⟩
  else
    let count_g := s.count 'G'
    let count_c := s.count 'C'
    let count_a := s.count 'A'
    let count_t := s.count 'T'
    ⟨round2 ((((count_g : ℚ) + (count_c : ℚ)) / (total : ℚ)) * 100),
      count_g, count_c, count_a, count_t⟩

/-- Python dict assignment `secuencias[current_id] = v` (source lines 43 and
50): overwrite in place when the key is present, else append; insertion
order of the remaining keys is preserved. -/
def dictInsert (d : List (List Char × List Char)) (k v : List Char) :
    List (List Char × List Char) :=
  if d.any (fun p => decide (p.1 = k)) then
    d.map (fun p => if p.1 = k then (k, v) else p)
  else d ++ [(k, v)]

/-- Reading entry `k` of the dict (first, and in fact only, pair carrying
key `k`). -/
def lookupKey (k : List Char) : List (List Char × List Char) → Option (List Char)
  | [] => none
  | p :: rest => if p.1 = k then some p.2 else lookupKey k rest

/-- `linea.startswith('>')` (source line 41). -/
def startsMarker (l : List Char) : Bool :=
  match l with
  | '>' :: _ => true
  | _ => false

/-- The `if current_id:` save step of `parse_fasta` (source lines 42-43 and
49-50): a record whose identifier is the empty string is not stored. -/
def saveCur (secuencias : List (List Char × List Char)) (current_id : List Char)
    (s : List Char) : List (List Char × List Char) :=
  if current_id = [] then secuencias else dictInsert secuencias current_id s

/-- The line loop of `parse_fasta` (source lines 40-50) plus the final save
(lines 49-50): each marker line closes the current record; other lines are
stripped and accumulated. -/
def parse_fasta_loop (secuencias : List (List Char × List Char))
    (current_id : List Char) (current_seq : List (List Char)) :
    List (List Char) → List (List Char × List Char)
  | [] => saveCur secuencias current_id current_seq.flatten
  | linea :: rest =>
    if startsMarker linea then
      parse_fasta_loop (saveCur secuencias current_id current_seq.flatten)
        (pyStrip (linea.drop 1)) [] rest
    else
      parse_fasta_loop secuencias current_id (current_seq ++ [pyStrip linea]) rest

/-- `parse_fasta` (source lines 34-52).  The input is the list of lines of
the file content, as produced by `contenido.splitlines()` at line 40. -/
def parse_fasta (lineas : List (List Char)) : List (List Char × List Char) :=
  parse_fasta_loop [] [] [] lineas

/-- One (identifier, sequence) pair per marker line, duplicates and all: the
stripped text after the marker, and the concatenation of the stripped
following non-marker lines.  Reference point for `parse_fasta` theorems. -/
def rawRecords : List (List Char) → List (List Char × List Char)
  | [] => []
  | linea :: rest =>
    if startsMarker linea then
      (pyStrip (linea.drop 1),
        ((rest.takeWhile (fun l => !startsMarker l)).map pyStrip).flatten)
        :: rawRecords rest
    else rawRecords rest

/-- The spec wording of claim C8 for line cleanup: strip only the
line-ending (trailing) whitespace, keeping leading whitespace. -/
def stripLineEnd (l : List Char) : List Char :=
  (l.reverse.dropWhile Char.isWhitespace).reverse

end GCCalc

namespace FastQC

/-- The sampling ceiling of `parse_fastq` (line 76 of `fastqc.py`). -/
def N_MAX : ℕ := 10000

/-- The fixed number of per-position slots (lines 67 and 88 of `fastqc.py`). -/
def MAX_POS : ℕ := 150

/-- One FASTQ record as produced by `SeqIO.parse(handle, 'fastq')`:
identifier, nucleotide string, and per-base quality scores. -/
structure FastqRecord where
  ident : String
  seq : List Char
  qual : List ℤ

/-- The accumulating state of `parse_fastq` (lines 63-69) and its returned
dict (lines 95-102). -/
structure FastqData where
  lengths : List ℕ
  qualities : List (List ℤ)
  ambiguous_bases : List ℕ
  sequences : List (List Char)
  nucleotide_counts : Char → ℕ → ℕ
  total_reads : ℕ

/-- The initial state: empty lists, the all-zero `defaultdict` table, and
`total_reads = 0`. -/
def initData : FastqData :=
  ⟨[], [], [], [], fun _ _ => 0, 0⟩

/-- The per-position inner loop (lines 87-89): walking the sequence from
position `pos`, bump entry `(base, pos)` whenever `pos < 150`. -/
def updateCountsFrom (counts : Char → ℕ → ℕ) (pos : ℕ) :
    List Char → (Char → ℕ → ℕ)
  | [] => counts
  | base :: rest =>
    updateCountsFrom
      (if pos < MAX_POS then
        (fun c q => if c = base ∧ q = pos then counts c q + 1 else counts c q)
      else counts)
      (pos + 1) rest

/-- The per-record body of the read loop (lines 79-90). -/
def processRecord (st : FastqData) (r : FastqRecord) : FastqData :=
  { lengths := st.lengths ++ [r.seq.length]
    qualities := st.qualities ++ [r.qual]
    ambiguous_bases := st.ambiguous_bases ++ [r.seq.count 'N']
    sequences := st.sequences ++ [r.seq]
    nucleotide_counts := updateCountsFrom st.nucleotide_counts 0 r.seq
    total_reads := st.total_reads + 1 }

/-- The enumerated read loop of `parse_fastq` (lines 74-90) with the
`if i >= 10000: break` ceiling check. -/
def parse_fastq_loop (st : FastqData) (i : ℕ) : List FastqRecord → FastqData
  | [] => st
  | r :: rest =>
    if N_MAX ≤ i then st
    else parse_fastq_loop (processRecord st r) (i + 1) rest

/-- `parse_fastq` (lines 53-102) on the decoded stream of records. -/
def parse_fastq (records : List FastqRecord) : FastqData :=
  parse_fastq_loop initData 0 records

/-- Substring containment, Python `adapter in seq` (line 167). -/
def containsSub (needle : List Char) : List Char → Bool
  | [] => needle.isPrefixOf []
  | c :: rest => needle.isPrefixOf (c :: rest) || containsSub needle rest

/-- The default adapter set of `detect_adapters` (line 161). -/
def ADAPTERS : List (List Char) :=
  ["AGATCGGAAGAG".toList, "CTGTCTCTTATA".toList]

/-- `detect_adapters` (lines 161-175).  The nested loop at lines 165-168
counts, for each adapter, the sequences containing it as a substring; the
percentage loop at lines 171-173 divides by `len(sequences)`, which raises
`ZeroDivisionError` when there are no sequences (modelled as `none`). -/
def detect_adapters (adapters sequences : List (List Char)) :
    Option (List (List Char × ℚ)) :=
  if sequences.length = 0 then none
  else some (adapters.map (fun a =>
    (a, ((sequences.countP (fun s => containsSub a s) : ℚ) /
      (sequences.length : ℚ)) * 100)))

/-- `find_duplicates` (lines 177-182).  `len(duplicates)` is the number of
distinct sequence strings of frequency greater than 1; the division by
`len(sequences)` raises `ZeroDivisionError` on the empty corpus (`none`). -/
def find_duplicates (sequences : List (List Char)) : Option ℚ :=
  if sequences.length = 0 then none
  else some (((sequences.dedup.countP
      (fun s => decide (1 < sequences.count s)) : ℚ) /
    (sequences.length : ℚ)) * 100)

/-- Observable outcome of one `parse_fastq` call: the returned dict if the
call returned normally, and whether the temporary file was deleted. -/
structure RunResult where
  result : Option FastqData
  tmpDeleted : Bool

/-- Control-flow model of `parse_fastq` (lines 59-93) including the
temporary file written at lines 59-61.  A format error positioned after the
listed well-formed records is raised by `SeqIO.parse` only if the loop asks
the iterator for the next record, i.e. only if the ceiling break at line 76
did not fire first (the break fires once 10001 records were yielded, so the
error is reached whenever at most `N_MAX` records precede it).  The
`os.unlink(tmp_path)` at line 93 is not inside a `with`/`finally` block, so
it runs only when no exception escapes the read loop. -/
def parse_fastq_io (records : List FastqRecord) (fmtErrorAtEnd : Bool) :
    RunResult :=
  if fmtErrorAtEnd ∧ records.length ≤ N_MAX then
    { result := none, tmpDeleted := false }
  else
    { result := some (parse_fastq records), tmpDeleted := true }

end FastQC

namespace GCCalc

theorem whitespace_not_isATCG (c : Char) (h : c.isWhitespace = true) :
    isATCG c = false := by
  simp only [Char.isWhitespace, Bool.or_eq_true, decide_eq_true_eq] at h
  rcases h with ((h | h) | h) | h <;> subst h <;> decide

theorem isATCG_cases (c : Char) (h : isATCG c = true) :
    c = 'A' ∨ c = 'T' ∨ c = 'C' ∨ c = 'G' := by
  simp only [isATCG, Bool.or_eq_true, decide_eq_true_eq] at h
  tauto

theorem isATCG_not_whitespace (c : Char) (h : isATCG c = true) :
    c.isWhitespace = false := by
  rcases isATCG_cases c h with h' | h' | h' | h' <;> subst h' <;> decide

theorem toUpper_of_isATCG (c : Char) (h : isATCG c = true) :
    c.toUpper = c := by
  rcases isATCG_cases c h with h' | h' | h' | h' <;> subst h' <;> decide

theorem filter_isATCG_dropWhile (l : List Char) :
    (l.dropWhile Char.isWhitespace).filter isATCG = l.filter isATCG := by
  induction l with
  | nil => rfl
  | cons c l ih =>
    by_cases h : c.isWhitespace
    · rw [List.dropWhile_cons_of_pos h, ih, List.filter_cons,
        whitespace_not_isATCG c h]
      simp
    · rw [List.dropWhile_cons_of_neg h]

theorem filter_isATCG_pyStrip (l : List Char) :
    (pyStrip l).filter isATCG = l.filter isATCG := by
  unfold pyStrip
  rw [List.filter_reverse, filter_isATCG_dropWhile, List.filter_reverse,
    List.reverse_reverse, filter_isATCG_dropWhile]

/-- The `.strip()` step of `calcular_gc` is invisible behind the ATCG
filter, so the filtered string is exactly the spec's description. -/
theorem filteredOf_eq (s : List Char) : filteredOf s = claimFiltered s :=
  filter_isATCG_pyStrip _

theorem mem_filteredOf_isATCG (s : List Char) :
    ∀ c ∈ filteredOf s, isATCG c = true := fun _ hc =>
  (List.mem_filter.mp hc).2

theorem dropWhile_ws_eq_self (l : List Char)
    (h : ∀ c ∈ l, c.isWhitespace = false) :
    l.dropWhile Char.isWhitespace = l := by
  cases l with
  | nil => rfl
  | cons c l =>
    exact List.dropWhile_cons_of_neg (by simp [h c (List.mem_cons_self c l)])

theorem pyStrip_eq_self (l : List Char)
    (h : ∀ c ∈ l, c.isWhitespace = false) : pyStrip l = l := by
  unfold pyStrip
  rw [dropWhile_ws_eq_self l h,
    dropWhile_ws_eq_self l.reverse (fun c hc => h c (List.mem_reverse.mp hc)),
    List.reverse_reverse]

theorem filteredOf_idem (s : List Char) :
    filteredOf (filteredOf s) = filteredOf s := by
  have hmem := mem_filteredOf_isATCG s
  have hmap : (filteredOf s).map Char.toUpper = filteredOf s := by
    rw [List.map_congr_left (fun a ha => toUpper_of_isATCG a (hmem a ha))]
    exact List.map_id _
  show (pyStrip ((filteredOf s).map Char.toUpper)).filter isATCG = filteredOf s
  rw [hmap, pyStrip_eq_self _ (fun c hc => isATCG_not_whitespace c (hmem c hc)),
    List.filter_eq_self.mpr (fun a ha => hmem a ha)]

theorem roundHalfEven_ge (q : ℚ) : ⌊q⌋ ≤ roundHalfEven q := by
  unfold roundHalfEven
  split_ifs <;> omega

theorem roundHalfEven_le (q : ℚ) : roundHalfEven q ≤ ⌊q⌋ + 1 := by
  unfold roundHalfEven
  split_ifs <;> omega

theorem round2_zero : round2 0 = 0 := by
  have h : roundHalfEven ((0 : ℚ) * 100) = 0 := by
    unfold roundHalfEven
    norm_num
  rw [round2, h]
  norm_num

theorem round2_nonneg {q : ℚ} (h : 0 ≤ q) : 0 ≤ round2 q := by
  have h1 : (0 : ℤ) ≤ ⌊q * 100⌋ := Int.floor_nonneg.mpr (by positivity)
  have h2 : (0 : ℤ) ≤ roundHalfEven (q * 100) := le_trans h1 (roundHalfEven_ge _)
  have h3 : (0 : ℚ) ≤ (roundHalfEven (q * 100) : ℚ) := by exact_mod_cast h2
  rw [round2]
  positivity

theorem round2_le_100 {q : ℚ} (h : q ≤ 100) : round2 q ≤ 100 := by
  have hy : q * 100 ≤ 10000 := by linarith
  have hfloor : ⌊q * 100⌋ ≤ 10000 := by
    have h1 : (⌊q * 100⌋ : ℚ) ≤ 10000 := le_trans (Int.floor_le _) hy
    exact_mod_cast h1
  have hr : roundHalfEven (q * 100) ≤ 10000 := by
    unfold roundHalfEven
    split_ifs with h1 h2 h3
    · exact hfloor
    all_goals {
      have hhalf : 1/2 ≤ q * 100 - ⌊q * 100⌋ := not_lt.mp h1
      have hfl : (⌊q * 100⌋ : ℚ) ≤ 19999/2 := by
        have := Int.floor_le (q * 100)
        linarith
      have hlt : (⌊q * 100⌋ : ℚ) < 10000 := lt_of_le_of_lt hfl (by norm_num)
      have : ⌊q * 100⌋ < 10000 := by exact_mod_cast hlt
      omega }
  rw [round2, div_le_iff₀ (by norm_num : (0 : ℚ) < 100)]
  have hrq : (roundHalfEven (q * 100) : ℚ) ≤ 10000 := by exact_mod_cast hr
  linarith

theorem count_G_add_C_le (l : List Char) :
    l.count 'G' + l.count 'C' ≤ l.length := by
  induction l with
  | nil => simp
  | cons c l ih =>
    by_cases hG : c = 'G'
    · subst hG
      have e1 : (('G' : Char) == 'G') = true := by decide
      have e2 : (('G' : Char) == 'C') = false := by decide
      simp only [List.count_cons, List.length_cons, e1, e2]
      simp
      omega
    · by_cases hC : c = 'C'
      · subst hC
        have e1 : (('C' : Char) == 'G') = false := by decide
        have e2 : (('C' : Char) == 'C') = true := by decide
        simp only [List.count_cons, List.length_cons, e1, e2]
        simp
        omega
      · simp only [List.count_cons, List.length_cons,
          beq_eq_false_iff_ne.mpr hG, beq_eq_false_iff_ne.mpr hC]
        simp
        omega

theorem count_ATCG_sum (l : List Char) (h : ∀ c ∈ l, isATCG c = true) :
    l.count 'A' + l.count 'C' + l.count 'G' + l.count 'T' = l.length := by
  induction l with
  | nil => rfl
  | cons c l ih =>
    have hc := h c (List.mem_cons_self c l)
    have hl : ∀ x ∈ l, isATCG x = true := fun x hx =>
      h x (List.mem_cons_of_mem c hx)
    have hIH := ih hl
    rcases isATCG_cases c hc with h' | h' | h' | h' <;> subst h' <;>
      simp [List.count_cons] <;> omega

theorem calcular_gc_of_len_zero (s : List Char)
    (h : (filteredOf s).length = 0) : calcular_gc s = ⟨0, 0, 0, 0, 0⟩ := by
  simp only [calcular_gc]
  rw [if_pos h]

theorem calcular_gc_of_len_pos (s : List Char)
    (h : (filteredOf s).length ≠ 0) :
    calcular_gc s =
      ⟨round2 (((((filteredOf s).count 'G' : ℚ) + ((filteredOf s).count 'C' : ℚ)) /
          ((filteredOf s).length : ℚ)) * 100),
        (filteredOf s).count 'G', (filteredOf s).count 'C',
        (filteredOf s).count 'A', (filteredOf s).count 'T'⟩ := by
  simp only [calcular_gc]
  rw [if_neg h]

/-- C5: for every input string the GC calculator first uppercases and
removes every character not in ATCG; the reported percentage equals
`round(100 * (G+C)/total, 2)` over the filtered string, lies in `[0, 100]`,
and an empty filtered string yields percentage `0.0` and all counts `0`
with no division fault. -/
theorem gc_percentage_formula (s : List Char) :
    (calcular_gc s).porcentaje
        = round2 (100 * (((claimFiltered s).count 'G' : ℚ) +
            ((claimFiltered s).count 'C' : ℚ)) / ((claimFiltered s).length : ℚ))
    ∧ 0 ≤ (calcular_gc s).porcentaje
    ∧ (calcular_gc s).porcentaje ≤ 100
    ∧ ((claimFiltered s).length = 0 → calcular_gc s = ⟨0, 0, 0, 0, 0⟩) := by
  rw [← filteredOf_eq]
  by_cases h : (filteredOf s).length = 0
  · rw [calcular_gc_of_len_zero s h]
    have hnil : filteredOf s = [] := List.length_eq_zero.mp h
    refine ⟨?_, le_refl _, by norm_num, fun _ => rfl⟩
    rw [hnil]
    simp [round2_zero]
  · rw [calcular_gc_of_len_pos s h]
    have hle : (filteredOf s).count 'G' + (filteredOf s).count 'C'
        ≤ (filteredOf s).length := count_G_add_C_le _
    have hpos : (0 : ℚ) < ((filteredOf s).length : ℚ) := by
      exact_mod_cast Nat.pos_of_ne_zero h
    have hq1 : (((filteredOf s).count 'G' : ℚ) + ((filteredOf s).count 'C' : ℚ)) /
        ((filteredOf s).length : ℚ) ≤ 1 := by
      rw [div_le_one hpos]
      exact_mod_cast hle
    have hq0 : (0 : ℚ) ≤ (((filteredOf s).count 'G' : ℚ) +
        ((filteredOf s).count 'C' : ℚ)) / ((filteredOf s).length : ℚ) := by
      positivity
    refine ⟨?_, ?_, ?_, fun h0 => absurd h0 h⟩
    · show round2 _ = round2 _
      congr 1
      ring
    · show (0 : ℚ) ≤ round2 _
      exact round2_nonneg (by positivity)
    · show round2 _ ≤ 100
      exact round2_le_100 (by nlinarith)

/-- C6: for every input string, the four base counts returned by
`calcular_gc` sum to the length of the filtered string. -/
theorem base_counts_sum (s : List Char) :
    (calcular_gc s).a + (calcular_gc s).c + (calcular_gc s).g +
      (calcular_gc s).t = (claimFiltered s).length := by
  rw [← filteredOf_eq]
  by_cases h : (filteredOf s).length = 0
  · rw [calcular_gc_of_len_zero s h, h]
    rfl
  · rw [calcular_gc_of_len_pos s h]
    exact count_ATCG_sum _ (mem_filteredOf_isATCG s)

/-- C7: the GC calculation is idempotent with respect to its own filtering;
running `calcular_gc` on the filtered string of a previous run returns the
identical result (percentage and all four counts). -/
theorem gc_idempotent (s : List Char) :
    calcular_gc (claimFiltered s) = calcular_gc s := by
  rw [← filteredOf_eq]
  simp only [calcular_gc, filteredOf_idem]

/-- Witness for C5 at the concrete input `"x"`: the filtered string is
empty, and the calculator returns the all-zero result. -/
theorem gc_percentage_formula_witness :
    calcular_gc ['x'] = ⟨0, 0, 0, 0, 0⟩ :=
  (gc_percentage_formula ['x']).2.2.2 (by decide)

theorem takeWhile_nm_of_all (lines : List (List Char))
    (h : ∀ l ∈ lines, startsMarker l = false) :
    lines.takeWhile (fun l => !startsMarker l) = lines := by
  induction lines with
  | nil => rfl
  | cons a rest ih =>
    rw [List.takeWhile_cons, h a (List.mem_cons_self a rest)]
    simp only [Bool.not_false, if_true]
    rw [ih (fun l hl => h l (List.mem_cons_of_mem a hl))]

theorem takeWhile_nm_append (xs : List (List Char)) (y : List Char)
    (ys : List (List Char)) (hxs : ∀ l ∈ xs, startsMarker l = false)
    (hy : startsMarker y = true) :
    (xs ++ y :: ys).takeWhile (fun l => !startsMarker l) = xs := by
  induction xs with
  | nil =>
    rw [List.nil_append, List.takeWhile_cons, hy]
    simp
  | cons a rest ih =>
    rw [List.cons_append, List.takeWhile_cons,
      hxs a (List.mem_cons_self a rest)]
    simp only [Bool.not_false, if_true]
    rw [ih (fun l hl => hxs l (List.mem_cons_of_mem a hl))]

theorem rawRecords_nm (lines : List (List Char))
    (h : ∀ l ∈ lines, startsMarker l = false) : rawRecords lines = [] := by
  induction lines with
  | nil => rfl
  | cons a rest ih =>
    simp only [rawRecords, h a (List.mem_cons_self a rest)]
    simp only [Bool.false_eq_true, if_false]
    exact ih (fun l hl => h l (List.mem_cons_of_mem a hl))

theorem rawRecords_append_nm (pre rest : List (List Char))
    (h : ∀ l ∈ pre, startsMarker l = false) :
    rawRecords (pre ++ rest) = rawRecords rest := by
  induction pre with
  | nil => rfl
  | cons a p ih =>
    rw [List.cons_append]
    simp only [rawRecords, h a (List.mem_cons_self a p)]
    simp only [Bool.false_eq_true, if_false]
    exact ih (fun l hl => h l (List.mem_cons_of_mem a hl))

theorem rawRecords_cons_marker (linea : List Char) (rest : List (List Char))
    (h : startsMarker linea = true) :
    rawRecords (linea :: rest)
      = (pyStrip (linea.drop 1),
          ((rest.takeWhile (fun l => !startsMarker l)).map pyStrip).flatten)
        :: rawRecords rest := by
  simp only [rawRecords, h, if_true]

theorem foldl_filter_cons_entry (d : List (List Char × List Char))
    (k v : List Char) (ps : List (List Char × List Char)) :
    (((k, v) :: ps).filter (fun p => decide (p.1 ≠ []))).foldl
        (fun d p => dictInsert d p.1 p.2) d
      = (ps.filter (fun p => decide (p.1 ≠ []))).foldl
        (fun d p => dictInsert d p.1 p.2) (saveCur d k v) := by
  rw [List.filter_cons]
  by_cases hk : k = []
  · rw [if_neg (by simp [hk]), saveCur, if_pos hk]
  · rw [if_pos (by simp [hk]), List.foldl_cons, saveCur, if_neg hk]

/-- The accumulating line loop, restated as a fold of dict insertions over
the per-marker records (records with empty identifiers being skipped). -/
theorem parse_fasta_loop_spec (lines : List (List Char)) :
    ∀ (secu : List (List Char × List Char)) (id acc : _),
    parse_fasta_loop secu id acc lines =
      ((rawRecords lines).filter (fun p => decide (p.1 ≠ []))).foldl
        (fun d p => dictInsert d p.1 p.2)
        (saveCur secu id (acc.flatten ++
          ((lines.takeWhile (fun l => !startsMarker l)).map pyStrip).flatten)) := by
  induction lines with
  | nil =>
    intro secu id acc
    simp [parse_fasta_loop, rawRecords]
  | cons linea rest ih =>
    intro secu id acc
    by_cases hm : startsMarker linea = true
    · rw [parse_fasta_loop, if_pos hm, ih,
        rawRecords_cons_marker linea rest hm, foldl_filter_cons_entry,
        List.takeWhile_cons, hm]
      simp only [Bool.not_true, Bool.false_eq_true, if_false, List.map_nil,
        List.flatten_nil, List.append_nil, List.nil_append]
    · have hm' : startsMarker linea = false := by
        simpa using hm
      rw [parse_fasta_loop, if_neg (by simp [hm']), ih]
      simp only [rawRecords, hm', Bool.false_eq_true, if_false,
        List.takeWhile_cons, Bool.not_false, if_true, List.map_cons,
        List.flatten_cons, List.flatten_append, List.flatten_cons,
        List.flatten_nil, List.append_nil, List.append_assoc]

/-- `parse_fasta` equals the fold of Python-dict insertions over the
nonempty-identifier records, in file order. -/
theorem parse_fasta_spec (lineas : List (List Char)) :
    parse_fasta lineas =
      ((rawRecords lineas).filter (fun p => decide (p.1 ≠ []))).foldl
        (fun d p => dictInsert d p.1 p.2) [] := by
  rw [parse_fasta, parse_fasta_loop_spec]
  rfl

theorem lookupKey_mapReplace_self (d : List (List Char × List Char))
    (k v : List Char) (h : d.any (fun p => decide (p.1 = k)) = true) :
    lookupKey k (d.map (fun p => if p.1 = k then (k, v) else p)) = some v := by
  induction d with
  | nil => simp at h
  | cons p d ih =>
    rw [List.map_cons]
    by_cases hp : p.1 = k
    · rw [if_pos hp]
      simp [lookupKey]
    · rw [if_neg hp]
      rw [lookupKey, if_neg hp]
      apply ih
      simpa [List.any_cons, hp] using h

theorem lookupKey_none_of_not_any (d : List (List Char × List Char))
    (k : List Char) (h : d.any (fun p => decide (p.1 = k)) = false) :
    lookupKey k d = none := by
  induction d with
  | nil => rfl
  | cons p d ih =>
    rw [List.any_cons] at h
    rcases Bool.or_eq_false_iff.mp h with ⟨h1, h2⟩
    rw [lookupKey, if_neg (by simpa using h1)]
    exact ih h2

theorem lookupKey_append_single_self (d : List (List Char × List Char))
    (k v : List Char) (h : d.any (fun p => decide (p.1 = k)) = false) :
    lookupKey k (d ++ [(k, v)]) = some v := by
  induction d with
  | nil => simp [lookupKey]
  | cons p d ih =>
    rw [List.any_cons] at h
    rcases Bool.or_eq_false_iff.mp h with ⟨h1, h2⟩
    rw [List.cons_append, lookupKey, if_neg (by simpa using h1)]
    exact ih h2

theorem lookupKey_dictInsert_self (d : List (List Char × List Char))
    (k v : List Char) : lookupKey k (dictInsert d k v) = some v := by
  rw [dictInsert]
  by_cases h : d.any (fun p => decide (p.1 = k)) = true
  · rw [if_pos h]
    exact lookupKey_mapReplace_self d k v h
  · rw [if_neg h]
    refine lookupKey_append_single_self d k v ?_
    simp only [Bool.not_eq_true] at h
    exact h

theorem lookupKey_mapReplace_ne (d : List (List Char × List Char))
    (k v k' : List Char) (hne : k' ≠ k) :
    lookupKey k' (d.map (fun p => if p.1 = k then (k, v) else p))
      = lookupKey k' d := by
  induction d with
  | nil => rfl
  | cons p d ih =>
    rw [List.map_cons]
    by_cases hp : p.1 = k
    · rw [if_pos hp, lookupKey, lookupKey,
        if_neg (show ¬((k, v).1 = k') from fun e => hne e.symm),
        if_neg (show ¬(p.1 = k') from fun e => hne (e.symm.trans hp)), ih]
    · rw [if_neg hp, lookupKey, lookupKey]
      by_cases hp' : p.1 = k'
      · rw [if_pos hp', if_pos hp']
      · rw [if_neg hp', if_neg hp', ih]

theorem lookupKey_append_single_ne (d : List (List Char × List Char))
    (k v k' : List Char) (hne : k' ≠ k) :
    lookupKey k' (d ++ [(k, v)]) = lookupKey k' d := by
  induction d with
  | nil =>
    have h : ¬((k, v).1 = k') := fun e => hne e.symm
    simp [lookupKey, h]
  | cons p d ih =>
    rw [List.cons_append, lookupKey, lookupKey]
    by_cases hp' : p.1 = k'
    · rw [if_pos hp', if_pos hp']
    · rw [if_neg hp', if_neg hp', ih]

theorem lookupKey_dictInsert_ne (d : List (List Char × List Char))
    (k v k' : List Char) (hne : k' ≠ k) :
    lookupKey k' (dictInsert d k v) = lookupKey k' d := by
  rw [dictInsert]
  split_ifs with h
  · exact lookupKey_mapReplace_ne d k v k' hne
  · exact lookupKey_append_single_ne d k v k' hne

theorem lookupKey_foldl_dictInsert (ps : List (List Char × List Char)) :
    ∀ (d : List (List Char × List Char)) (k : List Char),
    lookupKey k (ps.foldl (fun d p => dictInsert d p.1 p.2) d) =
      Option.or (((ps.filter (fun p => decide (p.1 = k))).getLast?).map Prod.snd)
        (lookupKey k d) := by
  induction ps with
  | nil =>
    intro d k
    simp
  | cons p ps ih =>
    intro d k
    rw [List.foldl_cons, ih, List.filter_cons]
    by_cases hp : p.1 = k
    · subst hp
      rw [if_pos (by simp)]
      cases hc : ps.filter (fun q => decide (q.1 = p.1)) with
      | nil =>
        simp only [List.getLast?_nil, Option.map_none, List.getLast?_singleton,
          Option.map_some]
        rw [lookupKey_dictInsert_self d p.1 p.2]
        rfl
      | cons r l =>
        rw [List.getLast?_cons_cons]
        obtain ⟨q, hq⟩ := Option.isSome_iff_exists.mp
          (List.getLast?_isSome.mpr (List.cons_ne_nil r l))
        rw [hq]
        rfl
    · rw [if_neg (by simpa using hp),
        lookupKey_dictInsert_ne d p.1 p.2 k (fun e => hp e.symm)]

theorem any_key_mapReplace (d : List (List Char × List Char))
    (k v k' : List Char) :
    (d.map (fun p => if p.1 = k then (k, v) else p)).any
        (fun p => decide (p.1 = k'))
      = d.any (fun p => decide (p.1 = k')) := by
  induction d with
  | nil => rfl
  | cons p d ih =>
    rw [List.map_cons, List.any_cons, List.any_cons, ih]
    congr 1
    by_cases hp : p.1 = k
    · rw [if_pos hp]
      show decide (k = k') = decide (p.1 = k')
      rw [hp]
    · rw [if_neg hp]

theorem countP_key_mapReplace (d : List (List Char × List Char))
    (k v k' : List Char) :
    (d.map (fun p => if p.1 = k then (k, v) else p)).countP
        (fun p => decide (p.1 = k'))
      = d.countP (fun p => decide (p.1 = k')) := by
  induction d with
  | nil => rfl
  | cons p d ih =>
    rw [List.map_cons, List.countP_cons, List.countP_cons, ih]
    congr 1
    by_cases hp : p.1 = k
    · rw [if_pos hp]
      show (if decide (k = k') = true then 1 else 0)
        = (if decide (p.1 = k') = true then 1 else 0)
      rw [hp]
    · rw [if_neg hp]

theorem any_key_dictInsert (d : List (List Char × List Char))
    (k v k' : List Char) :
    (dictInsert d k v).any (fun p => decide (p.1 = k'))
      = (d.any (fun p => decide (p.1 = k')) || decide (k = k')) := by
  rw [dictInsert]
  split_ifs with h
  · rw [any_key_mapReplace]
    by_cases hk : k = k'
    · subst hk
      simp only [decide_eq_true_eq]
      rw [h]
      simp
    · simp [hk]
  · rw [List.any_append]
    simp [List.any_cons]

theorem countP_key_dictInsert_INV (d : List (List Char × List Char))
    (k v k' : List Char)
    (hINV : d.countP (fun p => decide (p.1 = k'))
      = if d.any (fun p => decide (p.1 = k')) then 1 else 0) :
    (dictInsert d k v).countP (fun p => decide (p.1 = k'))
      = if (dictInsert d k v).any (fun p => decide (p.1 = k'))
        then 1 else 0 := by
  rw [any_key_dictInsert, dictInsert]
  split_ifs with h h2 h3
  · rcases Bool.or_eq_true_iff.mp h2 with h4 | h4
    · rw [countP_key_mapReplace, hINV, h4]
      simp
    · have hk : k = k' := by simpa using h4
      subst hk
      rw [countP_key_mapReplace, hINV, h]
      simp
  · rw [countP_key_mapReplace, hINV]
    rcases Bool.or_eq_false_iff.mp (Bool.not_eq_true _ ▸ h2) with ⟨h4, _⟩
    rw [h4]
    simp
  · rw [List.countP_append, hINV, List.countP_cons]
    rcases Bool.or_eq_true_iff.mp h3 with h4 | h4
    · rw [h4]
      by_cases hk : k = k'
      · exfalso
        rw [← hk] at h4
        exact h h4
      · have hk' : ¬((k, v).1 = k') := hk
        simp [hk']
    · have hk : k = k' := by simpa using h4
      subst hk
      have h5 : d.any (fun p => decide (p.1 = k)) = false := by
        simp only [Bool.not_eq_true] at h
        exact h
      rw [h5]
      simp
  · rw [List.countP_append, hINV, List.countP_cons]
    rcases Bool.or_eq_false_iff.mp (Bool.not_eq_true _ ▸ h3) with ⟨h4, h5⟩
    rw [h4]
    have hk : ¬((k, v).1 = k') := by simpa using h5
    simp [hk]

theorem countP_key_foldl_dictInsert (ps : List (List Char × List Char)) :
    ∀ (d : List (List Char × List Char)) (k : List Char),
    (d.countP (fun p => decide (p.1 = k))
        = if d.any (fun p => decide (p.1 = k)) then 1 else 0) →
    ((ps.foldl (fun d p => dictInsert d p.1 p.2) d).countP
        (fun p => decide (p.1 = k))
      = if (ps.foldl (fun d p => dictInsert d p.1 p.2) d).any
          (fun p => decide (p.1 = k)) then 1 else 0) := by
  induction ps with
  | nil => intro d k h; exact h
  | cons p ps ih =>
    intro d k h
    rw [List.foldl_cons]
    exact ih _ k (countP_key_dictInsert_INV d p.1 p.2 k h)

theorem any_key_foldl_dictInsert (ps : List (List Char × List Char)) :
    ∀ (d : List (List Char × List Char)) (k : List Char),
    (ps.foldl (fun d p => dictInsert d p.1 p.2) d).any
        (fun p => decide (p.1 = k))
      = (d.any (fun p => decide (p.1 = k))
          || ps.any (fun p => decide (p.1 = k))) := by
  induction ps with
  | nil =>
    intro d k
    simp
  | cons p ps ih =>
    intro d k
    rw [List.foldl_cons, ih, any_key_dictInsert, List.any_cons, Bool.or_assoc]

/-- C8 counterexample: on the four-line input `">a"`, `" AC"`, `">"`, `"G"`
(two marker lines with the distinct identifiers `"a"` and `""`, no trailing
marker-only content) the parser yields one entry, not two, because the
empty-identifier record is dropped; and the stored sequence is `"AC"`,
not the leading-whitespace-preserving `" AC"` that stripping only
line-ending whitespace would produce. -/
theorem parse_fasta_c8_counterexample :
    parse_fasta [['>', 'a'], [' ', 'A', 'C'], ['>'], ['G']]
        = [(['a'], ['A', 'C'])]
    ∧ ([(['a'], ['A', 'C'])] : List (List Char × List Char)).length ≠ 2
    ∧ stripLineEnd [' ', 'A', 'C'] ≠ ['A', 'C'] := by decide

/-- C8 (amended): for every marker-delimited line list containing exactly
two marker lines whose stripped identifiers are non-empty and distinct, the
parser yields exactly the two entries, each sequence being the
concatenation of its following non-marker lines with surrounding (leading
and trailing) whitespace stripped; and a line list with no marker lines
yields zero records. -/
theorem parse_fasta_two_records (pre mid post : List (List Char))
    (h1 h2 : List Char)
    (hpre : ∀ l ∈ pre, startsMarker l = false)
    (hmid : ∀ l ∈ mid, startsMarker l = false)
    (hpost : ∀ l ∈ post, startsMarker l = false)
    (hm1 : startsMarker h1 = true) (hm2 : startsMarker h2 = true)
    (hid1 : pyStrip (h1.drop 1) ≠ []) (hid2 : pyStrip (h2.drop 1) ≠ [])
    (hne : pyStrip (h1.drop 1) ≠ pyStrip (h2.drop 1)) :
    parse_fasta (pre ++ h1 :: (mid ++ h2 :: post))
        = [(pyStrip (h1.drop 1), (mid.map pyStrip).flatten),
           (pyStrip (h2.drop 1), (post.map pyStrip).flatten)]
    ∧ (∀ ls : List (List Char), (∀ l ∈ ls, startsMarker l = false) →
        parse_fasta ls = []) := by
  constructor
  · have hraw : rawRecords (pre ++ h1 :: (mid ++ h2 :: post))
        = [(pyStrip (h1.drop 1), (mid.map pyStrip).flatten),
           (pyStrip (h2.drop 1), (post.map pyStrip).flatten)] := by
      rw [rawRecords_append_nm _ _ hpre, rawRecords_cons_marker _ _ hm1,
        takeWhile_nm_append mid h2 post hmid hm2,
        rawRecords_append_nm _ _ hmid, rawRecords_cons_marker _ _ hm2,
        takeWhile_nm_of_all post hpost, rawRecords_nm post hpost]
    rw [parse_fasta_spec, hraw]
    rw [List.filter_cons, if_pos (by simpa using hid1),
      List.filter_cons, if_pos (by simpa using hid2), List.filter_nil,
      List.foldl_cons, List.foldl_cons, List.foldl_nil]
    have hfirst : dictInsert [] (pyStrip (h1.drop 1)) (mid.map pyStrip).flatten
        = [(pyStrip (h1.drop 1), (mid.map pyStrip).flatten)] := rfl
    rw [hfirst, dictInsert, if_neg]
    · rfl
    · simp only [List.any_cons, List.any_nil, Bool.or_false,
        decide_eq_true_eq]
      exact hne
  · intro ls hls
    rw [parse_fasta_spec, rawRecords_nm ls hls]
    rfl

/-- Witness for C8 at a concrete two-record input. -/
theorem parse_fasta_two_records_witness :
    parse_fasta ([] ++ ['>', 'a'] :: ([['A']] ++ ['>', 'b'] :: [['C']]))
        = [(pyStrip (['>', 'a'].drop 1), ([['A']].map pyStrip).flatten),
           (pyStrip (['>', 'b'].drop 1), ([['C']].map pyStrip).flatten)] :=
  (parse_fasta_two_records [] [['A']] [['C']] ['>', 'a'] ['>', 'b']
    (by decide) (by decide) (by decide) (by decide) (by decide)
    (by decide) (by decide) (by decide)).1

/-- C10 counterexample: the input `">"`, `"A"`, `">"`, `"C"` has two marker
lines yielding the same identifier string (the empty string), yet the
parser returns no entry at all for it, because records with empty
identifiers are silently discarded. -/
theorem parse_fasta_empty_id_counterexample :
    parse_fasta [['>'], ['A'], ['>'], ['C']] = []
    ∧ 2 ≤ ((rawRecords [['>'], ['A'], ['>'], ['C']]).filter
        (fun p => decide (p.1 = ([] : List Char)))).length := by decide

/-- C10 (amended): for every input in which two or more marker lines yield
the same non-empty identifier, the parser holds exactly one entry for that
identifier, and its sequence is that of the last record bearing it
(earlier same-identifier records are overwritten). -/
theorem parse_fasta_last_wins (lineas : List (List Char)) (k : List Char)
    (hk : k ≠ [])
    (h2 : 2 ≤ ((rawRecords lineas).filter (fun p => decide (p.1 = k))).length) :
    lookupKey k (parse_fasta lineas)
        = ((rawRecords lineas).filter
            (fun p => decide (p.1 = k))).getLast?.map Prod.snd
    ∧ (parse_fasta lineas).countP (fun p => decide (p.1 = k)) = 1 := by
  rw [parse_fasta_spec]
  have hff : ((rawRecords lineas).filter (fun p => decide (p.1 ≠ []))).filter
        (fun p => decide (p.1 = k))
      = (rawRecords lineas).filter (fun p => decide (p.1 = k)) := by
    rw [List.filter_filter]
    apply List.filter_congr
    intro p hp
    by_cases hpk : p.1 = k
    · simp [hpk, hk]
    · simp [hpk]
  have hne : (rawRecords lineas).filter (fun p => decide (p.1 = k)) ≠ [] := by
    intro h0
    rw [h0] at h2
    simp at h2
  obtain ⟨x, hx⟩ := List.exists_mem_of_ne_nil _ hne
  have hxp := List.mem_filter.mp hx
  have hxkey : x.1 = k := by simpa using hxp.2
  have hxnn : x ∈ (rawRecords lineas).filter (fun p => decide (p.1 ≠ [])) := by
    refine List.mem_filter.mpr ⟨hxp.1, ?_⟩
    simp [hxkey, hk]
  constructor
  · rw [lookupKey_foldl_dictInsert, hff]
    obtain ⟨q, hq⟩ := Option.isSome_iff_exists.mp
      (List.getLast?_isSome.mpr hne)
    rw [hq]
    rfl
  · rw [countP_key_foldl_dictInsert
        ((rawRecords lineas).filter (fun p => decide (p.1 ≠ []))) [] k
        (by simp),
      any_key_foldl_dictInsert]
    have hany : ((rawRecords lineas).filter
        (fun p => decide (p.1 ≠ []))).any (fun p => decide (p.1 = k)) = true :=
      List.any_eq_true.mpr ⟨x, hxnn, by simpa using hxkey⟩
    rw [hany]
    rfl

/-- Witness for C10 at the concrete input `">a"`, `"A"`, `">a"`, `"C"`. -/
theorem parse_fasta_last_wins_witness :
    lookupKey ['a'] (parse_fasta [['>', 'a'], ['A'], ['>', 'a'], ['C']])
        = ((rawRecords [['>', 'a'], ['A'], ['>', 'a'], ['C']]).filter
            (fun p => decide (p.1 = ['a']))).getLast?.map Prod.snd
    ∧ (parse_fasta [['>', 'a'], ['A'], ['>', 'a'], ['C']]).countP
        (fun p => decide (p.1 = ['a'])) = 1 :=
  parse_fasta_last_wins [['>', 'a'], ['A'], ['>', 'a'], ['C']] ['a']
    (by decide) (by decide)

end GCCalc

namespace FastQC

theorem parse_fastq_loop_eq_foldl (rs : List FastqRecord) :
    ∀ (st : FastqData) (i : ℕ), i ≤ N_MAX →
    parse_fastq_loop st i rs = (rs.take (N_MAX - i)).foldl processRecord st := by
  induction rs with
  | nil =>
    intro st i _
    simp [parse_fastq_loop]
  | cons r rs ih =>
    intro st i h
    rw [parse_fastq_loop]
    by_cases hi : N_MAX ≤ i
    · rw [if_pos hi, show N_MAX - i = 0 from by omega, List.take_zero,
        List.foldl_nil]
    · rw [if_neg hi, show N_MAX - i = (N_MAX - (i + 1)) + 1 from by omega,
        List.take_succ_cons, List.foldl_cons]
      exact ih (processRecord st r) (i + 1) (by omega)

theorem parse_fastq_eq_foldl (records : List FastqRecord) :
    parse_fastq records
      = (records.take N_MAX).foldl processRecord initData := by
  rw [parse_fastq, parse_fastq_loop_eq_foldl records initData 0 (by omega),
    Nat.sub_zero]

theorem total_reads_foldl (rs : List FastqRecord) :
    ∀ st : FastqData,
    (rs.foldl processRecord st).total_reads = st.total_reads + rs.length := by
  induction rs with
  | nil =>
    intro st
    simp
  | cons r rs ih =>
    intro st
    rw [List.foldl_cons, ih]
    simp only [processRecord, List.length_cons]
    omega

/-- C3: for every input stream of records, `total_reads` equals
`min(records_in_stream, 10000)`, and the pipeline state is identical to the
one computed from just the first 10,000 records: the remainder of the
stream contributes to no statistic. -/
theorem total_reads_min (records : List FastqRecord) :
    (parse_fastq records).total_reads = min records.length N_MAX
    ∧ parse_fastq records = parse_fastq (records.take N_MAX) := by
  constructor
  · rw [parse_fastq_eq_foldl, total_reads_foldl]
    show 0 + (records.take N_MAX).length = min records.length N_MAX
    rw [List.length_take]
    omega
  · rw [parse_fastq_eq_foldl, parse_fastq_eq_foldl (records.take N_MAX),
      List.take_take, min_self]

theorem updateCountsFrom_apply (seq : List Char) :
    ∀ (counts : Char → ℕ → ℕ) (pos p : ℕ) (s : Char),
    updateCountsFrom counts pos seq s p
      = counts s p +
        (if pos ≤ p ∧ p < MAX_POS ∧ seq.get? (p - pos) = some s
          then 1 else 0) := by
  induction seq with
  | nil =>
    intro counts pos p s
    rw [updateCountsFrom]
    simp
  | cons base rest ih =>
    intro counts pos p s
    rw [updateCountsFrom, ih]
    rcases Nat.lt_trichotomy p pos with hlt | heq | hgt
    · rw [if_neg (fun hh => absurd hh.1 (by omega) :
          ¬(pos + 1 ≤ p ∧ p < MAX_POS ∧ rest.get? (p - (pos + 1)) = some s)),
        if_neg (fun hh => absurd hh.1 (by omega) :
          ¬(pos ≤ p ∧ p < MAX_POS ∧ (base :: rest).get? (p - pos) = some s))]
      by_cases hm : pos < MAX_POS
      · rw [if_pos hm]
        show (if s = base ∧ p = pos then counts s p + 1 else counts s p) + 0
          = counts s p + 0
        rw [if_neg (fun hh => absurd hh.2 (by omega))]
      · rw [if_neg hm]
    · rw [if_neg (fun hh => absurd hh.1 (by omega) :
          ¬(pos + 1 ≤ p ∧ p < MAX_POS ∧ rest.get? (p - (pos + 1)) = some s)),
        show p - pos = 0 from by omega, List.get?_cons_zero]
      by_cases hm : pos < MAX_POS
      · rw [if_pos hm]
        show (if s = base ∧ p = pos then counts s p + 1 else counts s p) + 0
          = counts s p +
            (if pos ≤ p ∧ p < MAX_POS ∧ some base = some s then 1 else 0)
        by_cases hbs : s = base
        · rw [if_pos ⟨hbs, heq⟩,
            if_pos ⟨by omega, heq ▸ hm, by rw [hbs]⟩]
        · rw [if_neg (fun hh => hbs hh.1),
            if_neg (fun hh => hbs (Option.some.inj hh.2.2).symm)]
      · rw [if_neg hm, if_neg (fun hh => hm (heq ▸ hh.2.1))]
    · rw [show p - pos = (p - (pos + 1)) + 1 from by omega,
        List.get?_cons_succ]
      rw [if_congr (show (pos + 1 ≤ p ∧ p < MAX_POS ∧
            rest.get? (p - (pos + 1)) = some s)
          ↔ (pos ≤ p ∧ p < MAX_POS ∧ rest.get? (p - (pos + 1)) = some s)
        from ⟨fun hh => ⟨by omega, hh.2⟩, fun hh => ⟨by omega, hh.2⟩⟩) rfl rfl]
      by_cases hm : pos < MAX_POS
      · rw [if_pos hm]
        show (if s = base ∧ p = pos then counts s p + 1 else counts s p) + _
          = counts s p + _
        rw [if_neg (fun hh => absurd hh.2 (by omega))]
      · rw [if_neg hm]

theorem counts_foldl (rs : List FastqRecord) :
    ∀ (st : FastqData) (s : Char) (p : ℕ),
    (rs.foldl processRecord st).nucleotide_counts s p
      = st.nucleotide_counts s p
        + (if p < MAX_POS
            then rs.countP (fun r => decide (r.seq.get? p = some s))
            else 0) := by
  induction rs with
  | nil =>
    intro st s p
    simp
  | cons r rs ih =>
    intro st s p
    rw [List.foldl_cons, ih]
    have h1 : (processRecord st r).nucleotide_counts s p
        = st.nucleotide_counts s p
          + (if 0 ≤ p ∧ p < MAX_POS ∧ r.seq.get? (p - 0) = some s
              then 1 else 0) := by
      show updateCountsFrom st.nucleotide_counts 0 r.seq s p = _
      rw [updateCountsFrom_apply]
    rw [h1, List.countP_cons]
    by_cases hp : p < MAX_POS
    · rw [if_pos hp, if_pos hp]
      by_cases hg : r.seq.get? p = some s
      · rw [if_pos ⟨Nat.zero_le p, hp, by rw [Nat.sub_zero]; exact hg⟩,
          decide_eq_true hg]
        simp
        omega
      · rw [if_neg (fun hh => hg (by
            have := hh.2.2
            rwa [Nat.sub_zero] at this)),
          decide_eq_false hg]
        simp
    · rw [if_neg hp, if_neg hp, if_neg (fun hh => hp hh.2.1)]

/-- The position-indexed table, entry by entry: the all-zero initial table
plus one count per sampled record whose base at `p` is `s`, and zero at or
beyond position 150. -/
theorem parse_fastq_counts (records : List FastqRecord) (s : Char) (p : ℕ) :
    (parse_fastq records).nucleotide_counts s p
      = if p < MAX_POS
        then (records.take N_MAX).countP
          (fun r => decide (r.seq.get? p = some s))
        else 0 := by
  rw [parse_fastq_eq_foldl, counts_foldl]
  simp [initData]

theorem sum_countP_get (rs : List FastqRecord) (p : ℕ) (S : Finset Char)
    (hS : ∀ r ∈ rs, ∀ c ∈ r.seq, c ∈ S) :
    ∑ t ∈ S, rs.countP (fun r => decide (r.seq.get? p = some t))
      = rs.countP (fun r => decide (p < r.seq.length)) := by
  induction rs with
  | nil => simp
  | cons r rs ih =>
    have hr := hS r (List.mem_cons_self r rs)
    have hrs : ∀ r' ∈ rs, ∀ c ∈ r'.seq, c ∈ S := fun r' h' =>
      hS r' (List.mem_cons_of_mem r h')
    simp only [List.countP_cons]
    rw [Finset.sum_add_distrib, ih hrs]
    congr 1
    by_cases hlen : p < r.seq.length
    · obtain ⟨c, hc⟩ : ∃ c, r.seq.get? p = some c :=
        ⟨r.seq.get ⟨p, hlen⟩, List.get?_eq_get hlen⟩
      have hcS : c ∈ S := hr c (List.get?_mem hc)
      have hterm : ∀ t ∈ S,
          (if (decide (r.seq.get? p = some t)) = true then 1 else 0)
            = if c = t then 1 else 0 := by
        intro t ht
        rw [hc]
        simp
      rw [Finset.sum_congr rfl hterm, Finset.sum_ite_eq S c (fun _ => 1)]
      simp [hcS, hlen]
    · have hnone : r.seq.get? p = none := List.get?_eq_none.mpr (by omega)
      have hterm : ∀ t ∈ S,
          (if (decide (r.seq.get? p = some t)) = true then 1 else 0)
            = 0 := by
        intro t _
        rw [hnone]
        simp
      rw [Finset.sum_congr rfl hterm, Finset.sum_const_zero,
        decide_eq_false hlen]
      simp

/-- C4: the position-indexed nucleotide table counts, for every symbol `s`
and position `p < 150`, the sampled records whose base at `p` is `s`;
truncating every record to its first 150 bases leaves the table unchanged
(positions at or beyond 150 are silently ignored); and the table summed
over any symbol set covering the sampled alphabet at a fixed `p < 150`
equals the number of sampled records of length greater than `p`. -/
theorem nucleotide_table_invariant (records : List FastqRecord) (s : Char)
    (p : ℕ) :
    (p < MAX_POS →
      (parse_fastq records).nucleotide_counts s p
        = (records.take N_MAX).countP
            (fun r => decide (r.seq.get? p = some s)))
    ∧ (parse_fastq records).nucleotide_counts
        = (parse_fastq (records.map
            (fun r => ⟨r.ident, r.seq.take MAX_POS, r.qual⟩))).nucleotide_counts
    ∧ (∀ S : Finset Char, p < MAX_POS →
        (∀ r ∈ records.take N_MAX, ∀ c ∈ r.seq, c ∈ S) →
        ∑ t ∈ S, (parse_fastq records).nucleotide_counts t p
          = (records.take N_MAX).countP
              (fun r => decide (p < r.seq.length))) := by
  refine ⟨fun hp => ?_, ?_, fun S hp hS => ?_⟩
  · rw [parse_fastq_counts, if_pos hp]
  · funext t q
    rw [parse_fastq_counts, parse_fastq_counts]
    by_cases hq : q < MAX_POS
    · rw [if_pos hq, if_pos hq, ← List.map_take, List.countP_map]
      apply List.countP_congr
      intro r _
      simp only [Function.comp, decide_eq_true_eq, List.get?_eq_getElem?]
      rw [List.getElem?_take_of_lt hq]
    · rw [if_neg hq, if_neg hq]
  · rw [Finset.sum_congr rfl
      (fun t _ => by rw [parse_fastq_counts, if_pos hp])]
    exact sum_countP_get (records.take N_MAX) p S hS

/-- Witness for C4: one record `"A"` with the symbol set `{A}`. -/
theorem nucleotide_table_invariant_witness :
    ∑ t ∈ ({'A'} : Finset Char),
      (parse_fastq [⟨"r", ['A'], [30]⟩]).nucleotide_counts t 0
      = (([⟨"r", ['A'], [30]⟩] : List FastqRecord).take N_MAX).countP
          (fun r => decide (0 < r.seq.length)) :=
  (nucleotide_table_invariant [⟨"r", ['A'], [30]⟩] 'A' 0).2.2 {'A'}
    (by decide) (by decide)

theorem count_le_one_of_nodup (l : List (List Char)) (h : l.Nodup)
    (a : List Char) : l.count a ≤ 1 := by
  induction l with
  | nil => simp
  | cons b l ih =>
    rcases List.nodup_cons.mp h with ⟨hb, hl⟩
    rw [List.count_cons]
    by_cases hab : b = a
    · subst hab
      have : l.count b = 0 := List.count_eq_zero.mpr hb
      simp [this]
    · have hba : (b == a) = false := beq_eq_false_iff_ne.mpr hab
      rw [hba]
      simp only [Bool.false_eq_true, if_false]
      have := ih hl
      omega

/-- C1: for every non-empty corpus, `find_duplicates` returns exactly
(number of distinct sequences with frequency > 1) / (total records) × 100;
with pairwise-distinct sequences the result is 0; and with exactly one
sequence appearing 3 times among 10 records (the rest unique) the result is
exactly 10. -/
theorem find_duplicates_formula (seqs : List (List Char)) (hne : seqs ≠ []) :
    find_duplicates seqs
        = some (((seqs.dedup.countP
            (fun s => decide (1 < seqs.count s)) : ℚ) /
          (seqs.length : ℚ)) * 100)
    ∧ (seqs.Nodup → find_duplicates seqs = some 0)
    ∧ (∀ x : List Char, seqs.length = 10 → seqs.count x = 3 →
        (∀ y ∈ seqs, y ≠ x → seqs.count y ≤ 1) →
        find_duplicates seqs = some 10) := by
  have hlen : ¬(seqs.length = 0) := by
    simpa [List.length_eq_zero] using hne
  refine ⟨?_, ?_, ?_⟩
  · rw [find_duplicates, if_neg hlen]
  · intro hnd
    rw [find_duplicates, if_neg hlen]
    have hcount : seqs.dedup.countP (fun s => decide (1 < seqs.count s)) = 0 := by
      rw [List.countP_eq_zero]
      intro a _
      have := count_le_one_of_nodup seqs hnd a
      simp
      omega
    rw [hcount]
    norm_num
  · intro x h10 h3 hothers
    rw [find_duplicates, if_neg hlen]
    have hxmem : x ∈ seqs := by
      by_contra hxm
      rw [List.count_eq_zero_of_not_mem hxm] at h3
      omega
    have hcount : seqs.dedup.countP (fun s => decide (1 < seqs.count s)) = 1 := by
      have hcongr : ∀ a ∈ seqs.dedup,
          ((decide (1 < seqs.count a)) = true ↔ (a == x) = true) := by
        intro a ha
        constructor
        · intro hgt
          by_contra hax
          have hane : a ≠ x := by simpa using hax
          have hle := hothers a (List.mem_dedup.mp ha) hane
          simp at hgt
          omega
        · intro hax
          have hax' : a = x := by simpa using hax
          subst hax'
          simp
          omega
      rw [List.countP_congr hcongr]
      show seqs.dedup.count x = 1
      have hle := count_le_one_of_nodup seqs.dedup seqs.nodup_dedup x
      have hx : x ∈ seqs.dedup := List.mem_dedup.mpr hxmem
      have hpos : 0 < seqs.dedup.count x := List.count_pos_iff.mpr hx
      omega
    rw [hcount, h10]
    norm_num

/-- Witness for C1: one sequence appears 3 times among 10 records; the
reported duplicate percentage is exactly 10. -/
theorem find_duplicates_formula_witness :
    find_duplicates [['A'], ['A'], ['A'], ['B'], ['C'], ['D'], ['E'],
        ['F'], ['G'], ['H']] = some 10 :=
  (find_duplicates_formula _ (by decide)).2.2 ['A'] (by decide) (by decide)
    (by decide)

/-- C2: with zero records, both `detect_adapters` and `find_duplicates`
evaluate `(0 / 0) * 100` and raise `ZeroDivisionError` (modelled `none`)
instead of returning the zero result the spec requires. -/
theorem empty_corpus_division_by_zero :
    detect_adapters ADAPTERS [] = none ∧ find_duplicates [] = none :=
  ⟨rfl, rfl⟩

/-- C9: when a format error aborts the read after at most 10,000 records,
the exception escapes the loop and `os.unlink` at line 93 never runs: the
temporary file survives the call.  It is deleted only on the no-exception
path. -/
theorem tmpfile_leak_on_format_error :
    (parse_fastq_io [] true).tmpDeleted = false
    ∧ (parse_fastq_io [] true).result = none
    ∧ (parse_fastq_io [] false).tmpDeleted = true := by
  refine ⟨rfl, rfl, ?_⟩
  rfl

end FastQC
